import Mathlib

/-!
Verification of the register decoding layer of the rs485-rust energy-meter
poller.  The Rust source (src/modbus_datatypes.rs, src/main.rs) is embedded
shallowly: 16-bit register words are naturals reduced modulo 2^16 at the
points where the Rust type system guarantees `u16`, the `assert_eq!` length
checks become an `Except` error, and the `f32` arithmetic of the decoders is
given its exact rational semantics (the bit-level extractions, which carry
all the semantic content, are modelled exactly; the final float rounding is
outside the embedding, so results are stated in `ℚ`).
-/

namespace RS485

/-- Error signalled when the length of a register block does not match the
fixed requirement of the decoded type (the `assert_eq!(self.len(), n)` checks
in the source). -/
inductive ModbusError where
  | InvalidInputLength
deriving DecidableEq

/-- Rust `as i8` on a byte-sized value: keep the low 8 bits and reinterpret
them as a twos-complement signed byte. -/
def toI8 (n : ℕ) : ℤ :=
  if n % 2 ^ 8 < 2 ^ 7 then ((n % 2 ^ 8 : ℕ) : ℤ) else ((n % 2 ^ 8 : ℕ) : ℤ) - 2 ^ 8

/-- Rust `as i16` on a 16-bit word: reinterpret the low 16 bits as
twos-complement. -/
def toI16 (n : ℕ) : ℤ :=
  if n % 2 ^ 16 < 2 ^ 15 then ((n % 2 ^ 16 : ℕ) : ℤ) else ((n % 2 ^ 16 : ℕ) : ℤ) - 2 ^ 16

/-- Rust `as i32` on a 32-bit pattern: reinterpret the low 32 bits as
twos-complement. -/
def toI32 (n : ℕ) : ℤ :=
  if n % 2 ^ 32 < 2 ^ 31 then ((n % 2 ^ 32 : ℕ) : ℤ) else ((n % 2 ^ 32 : ℕ) : ℤ) - 2 ^ 32

/-- The `i24` mask of the `ux` crate: sign-extend the low 24 bits of the
internal `i32` (applied by `ux` before shifts, on both `BitOr` operands, and
in `i32::from`). -/
def mask24s (x : ℤ) : ℤ :=
  if x % 2 ^ 24 < 2 ^ 23 then x % 2 ^ 24 else x % 2 ^ 24 - 2 ^ 24

/-- T1: unsigned 16-bit value, returned unchanged (`self[0] as u16`). -/
def get_t1 (v : List ℕ) : Except ModbusError ℕ :=
  match v with
  | [w0] => .ok (w0 % 2 ^ 16)
  | _ => .error .InvalidInputLength

/-- T2: signed 16-bit value (`self[0] as i16`). -/
def get_t2 (v : List ℕ) : Except ModbusError ℤ :=
  match v with
  | [w0] => .ok (toI16 w0)
  | _ => .error .InvalidInputLength

/-- T3: `((self[0] as u32) << 16 | self[1] as u32) as i32`. -/
def get_t3 (v : List ℕ) : Except ModbusError ℤ :=
  match v with
  | [w0, w1] => .ok (toI32 ((w0 % 2 ^ 16) <<< 16 ||| w1 % 2 ^ 16))
  | _ => .error .InvalidInputLength

/-- T5: decade exponent in the high byte of word0 (`(self[0] >> 8) as i8`),
24-bit unsigned magnitude assembled through the `u24` type of the `ux` crate as
`u24::from(self[0] as u8) << 16 | u24::from(self[1] as u16)` (the `ux`
operations mask their operands to 24 bits; kept here as the explicit
`% 2 ^ 24`), value `(u32::from(val) as f32) * 10f32.powi(exp)` in exact
rational semantics. -/
def get_t5 (v : List ℕ) : Except ModbusError ℚ :=
  match v with
  | [w0, w1] =>
      let exp : ℤ := toI8 ((w0 % 2 ^ 16) >>> 8)
      let hi : ℕ := (((w0 % 2 ^ 16) % 2 ^ 8) % 2 ^ 24) <<< 16
      let lo : ℕ := (w1 % 2 ^ 16) % 2 ^ 24
      let val : ℕ := (hi % 2 ^ 24) ||| (lo % 2 ^ 24)
      .ok (((val % 2 ^ 24 : ℕ) : ℚ) * (10 : ℚ) ^ exp)
  | _ => .error .InvalidInputLength

/-- T6: decade exponent as in T5, 24-bit signed magnitude assembled through
the `i24` type of the `ux` crate as
`i24::from(self[0] as i8) << 16 | i24::from(self[1] as i16)`: both `BitOr`
operands are sign-extension masked (`mask24s`) and or-ed on their low 24
bits, and `i32::from` masks again; value `(i32::from(val) as f32) *
10f32.powi(exp)` in exact rational semantics. -/
def get_t6 (v : List ℕ) : Except ModbusError ℚ :=
  match v with
  | [w0, w1] =>
      let exp : ℤ := toI8 ((w0 % 2 ^ 16) >>> 8)
      let hi : ℤ := mask24s (toI8 w0) * 2 ^ 16
      let lo : ℤ := toI16 w1
      let pat : ℕ := ((mask24s hi) % 2 ^ 24).toNat ||| ((mask24s lo) % 2 ^ 24).toNat
      let val : ℤ := mask24s (pat : ℤ)
      .ok ((val : ℚ) * (10 : ℚ) ^ exp)
  | _ => .error .InvalidInputLength

/-- T7: power factor; `sign_dir = if (self[0] >> 8) == 0xFF { -1 } else { 1 }`,
the low byte of word0 (`self[0] as u8`) is bound but unused, and the result
is `sign_dir * (self[1] as i32)`. -/
def get_t7 (v : List ℕ) : Except ModbusError ℤ :=
  match v with
  | [w0, w1] =>
      let sign_dir : ℤ := if (w0 % 2 ^ 16) >>> 8 = 0xFF then -1 else 1
      let cap : ℤ := ((w1 % 2 ^ 16 : ℕ) : ℤ)
      .ok (sign_dir * cap)
  | _ => .error .InvalidInputLength

/-- T16: `(self[0] as f32) / 100.0` in exact rational semantics. -/
def get_t16 (v : List ℕ) : Except ModbusError ℚ :=
  match v with
  | [w0] => .ok (((w0 % 2 ^ 16 : ℕ) : ℚ) / 100)
  | _ => .error .InvalidInputLength

/-- T17: `((self[0] as i16) as f32) / 100.0` in exact rational semantics. -/
def get_t17 (v : List ℕ) : Except ModbusError ℚ :=
  match v with
  | [w0] => .ok (((toI16 w0 : ℤ) : ℚ) / 100)
  | _ => .error .InvalidInputLength

/-- The function `f32::recompose_raw(sign, expn, signif)` of the `ieee754` crate: assemble
the 32-bit pattern `(sign as u32) << 31 | (expn as u32) << 23 |
(signif & 0x7FFFFF)` (`& 0x7FFFFF` is `% 2 ^ 23`; `expn` is a `u8`, hence
the `% 2 ^ 8`).  `from_bits` is the identity on the bit pattern, so the
decoder below returns the IEEE-754 single-precision bit pattern itself. -/
def recompose_raw (sign : Bool) (expn : ℕ) (signif : ℕ) : ℕ :=
  (if sign then 1 else 0) <<< 31 ||| (expn % 2 ^ 8) <<< 23 ||| signif % 2 ^ 23

/-- FLOAT: `sign_bit = (self[0] >> 15) == 1`,
`exponent = ((self[0] << 1) >> 8) as u8` (the `u16` shift wraps modulo
2^16), `significand = ((self[0] << 9) as u32) << 7 | self[1] as u32`,
recomposed with `recompose_raw`; the result is the 32-bit IEEE-754 pattern. -/
def get_float (v : List ℕ) : Except ModbusError ℕ :=
  match v with
  | [w0, w1] =>
      let u0 : ℕ := w0 % 2 ^ 16
      let u1 : ℕ := w1 % 2 ^ 16
      let sign_bit : Bool := u0 >>> 15 == 1
      let exponent : ℕ := ((u0 <<< 1) % 2 ^ 16) >>> 8
      let significand : ℕ := (((u0 <<< 9) % 2 ^ 16) <<< 7) ||| u1
      .ok (recompose_raw sign_bit exponent significand)
  | _ => .error .InvalidInputLength

/-- Exact rational value of a finite IEEE-754 single-precision bit pattern
(sign, biased exponent, fraction; exponent field 255 — infinities and NaNs —
is not produced by the values considered here). -/
def f32ValOfBits (b : ℕ) : ℚ :=
  let s : ℚ := if b / 2 ^ 31 % 2 = 1 then -1 else 1
  let e : ℕ := b / 2 ^ 23 % 2 ^ 8
  let f : ℕ := b % 2 ^ 23
  if e = 0 then s * ((f : ℚ) / 2 ^ 23) * (2 : ℚ) ^ (-(126 : ℤ))
  else s * (1 + (f : ℚ) / 2 ^ 23) * (2 : ℚ) ^ ((e : ℤ) - 127)

/-- The `Counter` record of `main.rs`; `val` and `x10` are `f32` in the
source and carried here in exact rational semantics, `float` is the raw
IEEE-754 bit pattern produced by `get_float`. -/
structure Counter where
  exp : ℤ
  mantissa : ℤ
  val : ℚ
  x10 : ℚ
  float : ℕ
deriving DecidableEq

/-- The pure content of the `read_finder_counter!` macro (and of the inlined
copies in `get_measurements`): decode the exponent with T2 (cast to `i32`),
the mantissa with T3, the fine value with T3 then `/ 10.0`, the native float
with FLOAT, and compute the coarse value as
`(mantissa as f32) * 10.0f32.powf(exp as f32)`; the exponent is in `i16`
range so `exp as f32` is exact and, in exact rational semantics, the power
is the integer power `10 ^ exp`. -/
def read_finder_counter (rexp rman rx10 rflt : List ℕ) :
    Except ModbusError Counter := do
  let e ← get_t2 rexp
  let m ← get_t3 rman
  let x ← get_t3 rx10
  let f ← get_float rflt
  return { exp := e, mantissa := m, val := (m : ℚ) * (10 : ℚ) ^ e,
           x10 := (x : ℚ) / 10, float := f }

/-! ## Bit-level helper lemmas -/

/-- Or-ing a value shifted past `k` bits with a `k`-bit value is addition. -/
theorem lor_disjoint (a b i : ℕ) (h : b < 2 ^ i) : (a * 2 ^ i) ||| b = a * 2 ^ i + b := by
  rw [Nat.mul_comm]
  exact (Nat.mul_add_lt_is_or h a).symm

/-- Bitwise or distributes over the split of a number at bit `k`. -/
theorem lor_split (a b c d k : ℕ) (hb : b < 2 ^ k) (hd : d < 2 ^ k) :
    (a * 2 ^ k + b) ||| (c * 2 ^ k + d) = (a ||| c) * 2 ^ k + (b ||| d) := by
  apply Nat.eq_of_testBit_eq
  intro j
  rw [Nat.mul_comm a, Nat.mul_comm c, Nat.mul_comm (a ||| c)]
  rw [Nat.testBit_or, Nat.testBit_mul_pow_two_add _ hb, Nat.testBit_mul_pow_two_add _ hd,
    Nat.testBit_mul_pow_two_add _ (Nat.or_lt_two_pow hb hd), Nat.testBit_or, Nat.testBit_or]
  by_cases hj : j < k <;> simp [hj]

/-- Special case of `lor_split` with an empty low part on the left. -/
theorem lor_split0 (a c d k : ℕ) (hd : d < 2 ^ k) :
    (a * 2 ^ k) ||| (c * 2 ^ k + d) = (a ||| c) * 2 ^ k + d := by
  have h := lor_split a 0 c d k (Nat.pos_pow_of_pos k (by norm_num)) hd
  simpa using h

/-- Or-ing a `k`-bit value with the all-ones `k`-bit mask gives the mask. -/
theorem lor_ones (x k : ℕ) (h : x < 2 ^ k) : x ||| (2 ^ k - 1) = 2 ^ k - 1 := by
  apply Nat.eq_of_testBit_eq
  intro j
  rw [Nat.testBit_or, Nat.testBit_two_pow_sub_one]
  by_cases hj : j < k
  · simp [hj]
  · have hx : x < 2 ^ j := lt_of_lt_of_le h (Nat.pow_le_pow_right (by norm_num) (by omega))
    simp [hj, Nat.testBit_lt_two_pow hx]

/-- Assembling sign, exponent field and significand by bitwise or is the
weighted sum, provided each field is in range. -/
theorem recompose_assemble (s e f : ℕ) (he : e < 2 ^ 8) (hf : f < 2 ^ 23) :
    (s * 2 ^ 31) ||| (e * 2 ^ 23) ||| f = s * 2 ^ 31 + e * 2 ^ 23 + f := by
  rw [lor_disjoint s (e * 2 ^ 23) 31 (by omega),
    (by ring : s * 2 ^ 31 + e * 2 ^ 23 = (s * 2 ^ 8 + e) * 2 ^ 23),
    lor_disjoint _ _ 23 hf]

/-! ## Structural lemmas about the decoders -/

/-- T3 on two in-range words is the signed reinterpretation of the
big-endian concatenation. -/
theorem get_t3_eq (w0 w1 : ℕ) (h0 : w0 < 2 ^ 16) (h1 : w1 < 2 ^ 16) :
    get_t3 [w0, w1] = .ok (toI32 (w0 * 2 ^ 16 + w1)) := by
  simp only [get_t3, Nat.shiftLeft_eq]
  rw [Nat.mod_eq_of_lt h0, Nat.mod_eq_of_lt h1, lor_disjoint _ _ 16 h1]

/-- T5 on two in-range words: the 24-bit magnitude is the plain
concatenation of the low byte of word0 with word1. -/
theorem get_t5_eq (w0 w1 : ℕ) (h0 : w0 < 2 ^ 16) (h1 : w1 < 2 ^ 16) :
    get_t5 [w0, w1] =
      .ok ((((w0 % 2 ^ 8) * 2 ^ 16 + w1 : ℕ) : ℚ) * (10 : ℚ) ^ toI8 (w0 >>> 8)) := by
  simp only [get_t5, Nat.shiftLeft_eq]
  rw [Nat.mod_eq_of_lt h0, Nat.mod_eq_of_lt h1]
  have e1 : (w0 % 2 ^ 8) % 2 ^ 24 = w0 % 2 ^ 8 := Nat.mod_eq_of_lt (by omega)
  have e2 : w1 % 2 ^ 24 = w1 := Nat.mod_eq_of_lt (by omega)
  have e3 : (w0 % 2 ^ 8) * 2 ^ 16 % 2 ^ 24 = (w0 % 2 ^ 8) * 2 ^ 16 := Nat.mod_eq_of_lt (by omega)
  simp only [e1, e2, e3]
  rw [lor_disjoint _ _ 16 h1]
  have e4 : ((w0 % 2 ^ 8) * 2 ^ 16 + w1) % 2 ^ 24 = (w0 % 2 ^ 8) * 2 ^ 16 + w1 :=
    Nat.mod_eq_of_lt (by omega)
  rw [e4]

/-- Concrete T5 sample from the test fixture of the repository. -/
theorem get_t5_sample : get_t5 [0xFD01, 0xE240] = .ok (15432 / 125) := by
  rw [get_t5_eq 0xFD01 0xE240 (by norm_num) (by norm_num)]
  norm_num [toI8, Nat.shiftRight_eq_div_pow]

/-! ## Claim theorems -/

/-- Claim C8: for 2-word inputs, T3 is the signed 32-bit twos-complement
reinterpretation of the big-endian concatenation (word0 in bits 31-16,
word1 in bits 15-0): the result is congruent to the concatenation modulo
2^32 and lies in the signed 32-bit range, and
T3 of [0x075B, 0xCD15] is 123456789. -/
theorem get_t3_signed_concat (w0 w1 : ℕ) (h0 : w0 < 2 ^ 16) (h1 : w1 < 2 ^ 16) :
    get_t3 [w0, w1] = .ok (toI32 (w0 * 2 ^ 16 + w1)) ∧
    toI32 (w0 * 2 ^ 16 + w1) % 2 ^ 32 = ((w0 * 2 ^ 16 + w1 : ℕ) : ℤ) % 2 ^ 32 ∧
    -2 ^ 31 ≤ toI32 (w0 * 2 ^ 16 + w1) ∧ toI32 (w0 * 2 ^ 16 + w1) < 2 ^ 31 ∧
    get_t3 [0x075B, 0xCD15] = .ok 123456789 := by
  refine ⟨get_t3_eq w0 w1 h0 h1, ?_, ?_, ?_, ?_⟩
  · simp only [toI32]; split_ifs <;> omega
  · simp only [toI32]; split_ifs <;> omega
  · simp only [toI32]; split_ifs <;> omega
  · norm_num [get_t3, toI32, Nat.shiftLeft_eq,
      show ((123404288 : ℕ) ||| 52501) = 123456789 from by decide]

/-- Witness for C8 at the concrete input of the test fixture. -/
theorem get_t3_signed_concat_witness :
    (0x075B : ℕ) < 2 ^ 16 ∧ (0xCD15 : ℕ) < 2 ^ 16 ∧
    (get_t3 [0x075B, 0xCD15] = .ok (toI32 (0x075B * 2 ^ 16 + 0xCD15)) ∧
      toI32 (0x075B * 2 ^ 16 + 0xCD15) % 2 ^ 32 =
        ((0x075B * 2 ^ 16 + 0xCD15 : ℕ) : ℤ) % 2 ^ 32 ∧
      -2 ^ 31 ≤ toI32 (0x075B * 2 ^ 16 + 0xCD15) ∧
      toI32 (0x075B * 2 ^ 16 + 0xCD15) < 2 ^ 31 ∧
      get_t3 [0x075B, 0xCD15] = .ok 123456789) :=
  ⟨by norm_num, by norm_num,
    get_t3_signed_concat 0x075B 0xCD15 (by norm_num) (by norm_num)⟩

/-- Claim C9: T1 returns the word unchanged, T2 its signed 16-bit
twos-complement reinterpretation (congruent modulo 2^16, in signed range),
T16 the unsigned word divided by 100, T17 the signed word divided by 100,
and T17 of [0xCFC7] is -123.45. -/
theorem one_word_decoders (w : ℕ) (h : w < 2 ^ 16) :
    get_t1 [w] = .ok w ∧
    get_t2 [w] = .ok (toI16 w) ∧
    toI16 w % 2 ^ 16 = (w : ℤ) % 2 ^ 16 ∧ -2 ^ 15 ≤ toI16 w ∧ toI16 w < 2 ^ 15 ∧
    get_t16 [w] = .ok ((w : ℚ) / 100) ∧
    get_t17 [w] = .ok ((toI16 w : ℚ) / 100) ∧
    get_t17 [0xCFC7] = .ok (-12345 / 100) := by
  refine ⟨?_, rfl, ?_, ?_, ?_, ?_, rfl, ?_⟩
  · simp only [get_t1, Nat.mod_eq_of_lt h]
  · simp only [toI16]; split_ifs <;> omega
  · simp only [toI16]; split_ifs <;> omega
  · simp only [toI16]; split_ifs <;> omega
  · simp only [get_t16, Nat.mod_eq_of_lt h]
  · norm_num [get_t17, toI16]

/-- Witness for C9 at the concrete input of the test fixture. -/
theorem one_word_decoders_witness :
    (0xCFC7 : ℕ) < 2 ^ 16 ∧
    (get_t1 [0xCFC7] = .ok 0xCFC7 ∧
      get_t2 [0xCFC7] = .ok (toI16 0xCFC7) ∧
      toI16 0xCFC7 % 2 ^ 16 = (0xCFC7 : ℤ) % 2 ^ 16 ∧
      -2 ^ 15 ≤ toI16 0xCFC7 ∧ toI16 0xCFC7 < 2 ^ 15 ∧
      get_t16 [0xCFC7] = .ok ((0xCFC7 : ℚ) / 100) ∧
      get_t17 [0xCFC7] = .ok ((toI16 0xCFC7 : ℚ) / 100) ∧
      get_t17 [0xCFC7] = .ok (-12345 / 100)) :=
  ⟨by norm_num, one_word_decoders 0xCFC7 (by norm_num)⟩

/-- Claim C6: T5 on two words is `m * 10 ^ e` where `e` is the high byte of
word0 as a signed 8-bit integer (in range, congruent to the byte modulo
2^8) and `m` is the unsigned 24-bit concatenation of the low byte of word0
with word1; T5 of [0xFD01, 0xE240] is 123.456, within float-rounding
distance (2 ulp at that magnitude) of 123.45601. -/
theorem get_t5_decade (w0 w1 : ℕ) (h0 : w0 < 2 ^ 16) (h1 : w1 < 2 ^ 16) :
    get_t5 [w0, w1] =
      .ok ((((w0 % 2 ^ 8) * 2 ^ 16 + w1 : ℕ) : ℚ) * (10 : ℚ) ^ toI8 (w0 >>> 8)) ∧
    -2 ^ 7 ≤ toI8 (w0 >>> 8) ∧ toI8 (w0 >>> 8) < 2 ^ 7 ∧
    toI8 (w0 >>> 8) % 2 ^ 8 = ((w0 >>> 8 : ℕ) : ℤ) % 2 ^ 8 ∧
    get_t5 [0xFD01, 0xE240] = .ok (15432 / 125) ∧
    (15432 / 125 : ℚ) - 12345601 / 100000 < 1 / 2 ^ 16 ∧
    (12345601 / 100000 : ℚ) - 15432 / 125 < 1 / 2 ^ 16 := by
  refine ⟨get_t5_eq w0 w1 h0 h1, ?_, ?_, ?_, get_t5_sample, by norm_num, by norm_num⟩
  · simp only [toI8]; split_ifs <;> omega
  · simp only [toI8]; split_ifs <;> omega
  · simp only [toI8]; split_ifs <;> omega

/-- Witness for C6 at the concrete input of the test fixture. -/
theorem get_t5_decade_witness :
    (0xFD01 : ℕ) < 2 ^ 16 ∧ (0xE240 : ℕ) < 2 ^ 16 ∧
    (get_t5 [0xFD01, 0xE240] =
        .ok ((((0xFD01 % 2 ^ 8) * 2 ^ 16 + 0xE240 : ℕ) : ℚ) *
          (10 : ℚ) ^ toI8 (0xFD01 >>> 8)) ∧
      -2 ^ 7 ≤ toI8 (0xFD01 >>> 8) ∧ toI8 (0xFD01 >>> 8) < 2 ^ 7 ∧
      toI8 (0xFD01 >>> 8) % 2 ^ 8 = ((0xFD01 >>> 8 : ℕ) : ℤ) % 2 ^ 8 ∧
      get_t5 [0xFD01, 0xE240] = .ok (15432 / 125) ∧
      (15432 / 125 : ℚ) - 12345601 / 100000 < 1 / 2 ^ 16 ∧
      (12345601 / 100000 : ℚ) - 15432 / 125 < 1 / 2 ^ 16) :=
  ⟨by norm_num, by norm_num, get_t5_decade 0xFD01 0xE240 (by norm_num) (by norm_num)⟩

/-- Claim C10: every successful T5 decode is non-negative. -/
theorem get_t5_nonneg (v : List ℕ) (q : ℚ) (h : get_t5 v = .ok q) : 0 ≤ q := by
  rcases v with _ | ⟨w0, _ | ⟨w1, _ | ⟨w2, t⟩⟩⟩
  · simp [get_t5] at h
  · simp [get_t5] at h
  · simp only [get_t5, Except.ok.injEq] at h
    rw [← h]
    positivity
  · simp [get_t5] at h

/-- Witness for C10 at the concrete input of the test fixture. -/
theorem get_t5_nonneg_witness : (0 : ℚ) ≤ 15432 / 125 :=
  get_t5_nonneg [0xFD01, 0xE240] (15432 / 125) get_t5_sample

/-- Claim C7: T7 on two words is `sign * word1` where the sign is -1 exactly
when the high byte of word0 is 0xFF, word1 enters unsigned and unscaled, and
the low byte of word0 never changes the result; concretely a 0xFF high byte
flips the sign of 0x1234 and a 0x01 high byte does not. -/
theorem get_t7_sign (w0 w1 a : ℕ) (h0 : w0 < 2 ^ 16) (h1 : w1 < 2 ^ 16) (ha : a < 2 ^ 16) :
    get_t7 [w0, w1] = .ok ((if w0 >>> 8 = 0xFF then (-1 : ℤ) else 1) * (w1 : ℤ)) ∧
    (a >>> 8 = w0 >>> 8 → get_t7 [a, w1] = get_t7 [w0, w1]) ∧
    get_t7 [0xFF00, 0x1234] = .ok (-0x1234) ∧
    get_t7 [0x0112, 0x1234] = .ok 0x1234 := by
  have key : ∀ b : ℕ, b < 2 ^ 16 →
      get_t7 [b, w1] = .ok ((if b >>> 8 = 0xFF then (-1 : ℤ) else 1) * (w1 : ℤ)) := by
    intro b hb
    simp only [get_t7, Nat.mod_eq_of_lt hb, Nat.mod_eq_of_lt h1]
  refine ⟨key w0 h0, fun hab => ?_, ?_, ?_⟩
  · rw [key a ha, key w0 h0, hab]
  · norm_num [get_t7, Nat.shiftRight_eq_div_pow]
  · norm_num [get_t7, Nat.shiftRight_eq_div_pow]

/-- Witness for C7: same high byte 0xFF with different low bytes. -/
theorem get_t7_sign_witness :
    (0xFF12 : ℕ) < 2 ^ 16 ∧ (0x1234 : ℕ) < 2 ^ 16 ∧ (0xFF34 : ℕ) < 2 ^ 16 ∧
    (get_t7 [0xFF12, 0x1234] =
        .ok ((if 0xFF12 >>> 8 = 0xFF then (-1 : ℤ) else 1) * (0x1234 : ℤ)) ∧
      (0xFF34 >>> 8 = 0xFF12 >>> 8 → get_t7 [0xFF34, 0x1234] = get_t7 [0xFF12, 0x1234]) ∧
      get_t7 [0xFF00, 0x1234] = .ok (-0x1234) ∧
      get_t7 [0x0112, 0x1234] = .ok 0x1234) :=
  ⟨by norm_num, by norm_num, by norm_num,
    get_t7_sign 0xFF12 0x1234 0xFF34 (by norm_num) (by norm_num) (by norm_num)⟩

/-- FLOAT on two in-range words produces exactly the bits of the big-endian
32-bit concatenation of the words: the sign, exponent and significand fields
carved out of word0 reassemble, weighted, into `w0 * 2 ^ 16 + w1`. -/
theorem get_float_concat (w0 w1 : ℕ) (h0 : w0 < 2 ^ 16) (h1 : w1 < 2 ^ 16) :
    get_float [w0, w1] = .ok (w0 * 2 ^ 16 + w1) := by
  simp only [get_float, recompose_raw, Nat.shiftLeft_eq]
  rw [Nat.mod_eq_of_lt h0, Nat.mod_eq_of_lt h1]
  have hsig1 : w0 * 2 ^ 9 % 2 ^ 16 = w0 % 2 ^ 7 * 2 ^ 9 := by omega
  have hsig2 : w0 % 2 ^ 7 * 2 ^ 9 * 2 ^ 7 = w0 % 2 ^ 7 * 2 ^ 16 := by ring
  rw [hsig1, hsig2, lor_disjoint _ _ 16 h1]
  rw [recompose_assemble _ _ _ (Nat.mod_lt _ (by norm_num)) (Nat.mod_lt _ (by norm_num))]
  simp only [Except.ok.injEq]
  have hm : (w0 % 2 ^ 7 * 2 ^ 16 + w1) % 2 ^ 23 = w0 % 2 ^ 7 * 2 ^ 16 + w1 := by omega
  rw [hm]
  simp only [Nat.shiftRight_eq_div_pow]
  by_cases hw : w0 / 2 ^ 15 = 1
  · simp only [hw]
    norm_num
    omega
  · have hz : w0 / 2 ^ 15 = 0 := by omega
    simp only [hz]
    norm_num
    omega

/-- Concrete FLOAT sample from the test fixture of the repository:
0x42F6E666 is the IEEE-754 single-precision pattern of the float nearest to
123.45. -/
theorem get_float_sample : get_float [0x42F6, 0xE666] = .ok 0x42F6E666 := by
  norm_num [get_float, recompose_raw, Nat.shiftRight_eq_div_pow, Nat.shiftLeft_eq,
    show ((7733248 : ℕ) ||| 58982) = 7792230 from by decide,
    show ((1115684864 : ℕ) ||| 7792230) = 1123477094 from by decide]

/-- T6 when bit 15 of word1 is set: the sign-extension of `self[1] as i16`
inside `i24` overwrites bits 23-16 with ones, so the low byte of word0 is
ignored and the decoded magnitude collapses to the signed 16-bit value of
word1 alone. -/
theorem get_t6_eq_high (w0 w1 : ℕ) (h0 : w0 < 2 ^ 16) (h1 : 2 ^ 15 ≤ w1) (h2 : w1 < 2 ^ 16) :
    get_t6 [w0, w1] = .ok (((toI16 w1 : ℤ) : ℚ) * (10 : ℚ) ^ toI8 (w0 >>> 8)) := by
  simp only [get_t6]
  rw [Nat.mod_eq_of_lt h0]
  have hhi : ((mask24s (mask24s (toI8 w0) * 2 ^ 16)) % 2 ^ 24).toNat = (w0 % 2 ^ 8) * 2 ^ 16 := by
    simp only [toI8, mask24s]
    split_ifs <;> omega
  have hlo : ((mask24s (toI16 w1)) % 2 ^ 24).toNat = (2 ^ 8 - 1) * 2 ^ 16 + w1 := by
    simp only [toI16, mask24s]
    split_ifs <;> omega
  rw [hhi, hlo, lor_split0 _ _ _ 16 h2, lor_ones (w0 % 2 ^ 8) 8 (Nat.mod_lt _ (by norm_num))]
  have hval : mask24s (((2 ^ 8 - 1) * 2 ^ 16 + w1 : ℕ) : ℤ) = toI16 w1 := by
    simp only [toI16, mask24s]
    split_ifs <;> omega
  rw [hval]

/-- T6 when bit 15 of word1 is clear: the magnitude is the sign-extended
24-bit concatenation of the low byte of word0 with word1, as documented. -/
theorem get_t6_eq_low (w0 w1 : ℕ) (h0 : w0 < 2 ^ 16) (h1 : w1 < 2 ^ 15) :
    get_t6 [w0, w1] =
      .ok ((mask24s (((w0 % 2 ^ 8) * 2 ^ 16 + w1 : ℕ) : ℤ) : ℚ) * (10 : ℚ) ^ toI8 (w0 >>> 8)) := by
  simp only [get_t6]
  rw [Nat.mod_eq_of_lt h0]
  have hhi : ((mask24s (mask24s (toI8 w0) * 2 ^ 16)) % 2 ^ 24).toNat = (w0 % 2 ^ 8) * 2 ^ 16 := by
    simp only [toI8, mask24s]
    split_ifs <;> omega
  have hlo : ((mask24s (toI16 w1)) % 2 ^ 24).toNat = w1 := by
    simp only [toI16, mask24s]
    split_ifs <;> omega
  rw [hhi, hlo, lor_disjoint _ _ 16 (by omega)]

/-- Claim C1: on [0xFD01, 0x8000] the T6 decoder does NOT return the
sign-extended 24-bit concatenation 0x018000 * 10 ^ -3 = 98.304: the `i24`
or-assembly sign-extends word1 first, which overwrites the low byte of
word0, and the decoder returns -32768 * 10 ^ -3 = -32.768; on the
documented example [0xFDFE, 0x1DC0] (word1 bit 15 clear) it does return
-123456 * 10 ^ -3 = -123.456 as the documentation states. -/
theorem get_t6_sign_extension_bug :
    get_t6 [0xFD01, 0x8000] = .ok (-4096 / 125) ∧
    ((-4096 / 125 : ℚ) ≠ (0x018000 : ℚ) * (10 : ℚ) ^ (-3 : ℤ)) ∧
    get_t6 [0xFDFE, 0x1DC0] = .ok (-15432 / 125) := by
  refine ⟨?_, by norm_num, ?_⟩
  · norm_num [get_t6, toI8, toI16, mask24s, Nat.shiftRight_eq_div_pow,
      show ((65536 : ℤ).toNat ||| (16744448 : ℤ).toNat : ℕ) = 16744448 from by decide]
  · norm_num [get_t6, toI8, toI16, mask24s, Nat.shiftRight_eq_div_pow,
      show ((16646144 : ℤ).toNat ||| (7616 : ℤ).toNat : ℕ) = 16653760 from by decide]

/-- Counterexample for claim C2: there is NO 2-word input on which FLOAT
differs from interpreting the straight big-endian 32-bit concatenation as an
IEEE-754 single-precision pattern. -/
theorem get_float_no_mismatch :
    ¬ ∃ w0 w1 : ℕ, w0 < 2 ^ 16 ∧ w1 < 2 ^ 16 ∧
      get_float [w0, w1] ≠ .ok (w0 * 2 ^ 16 + w1) := by
  rintro ⟨w0, w1, hw0, hw1, hne⟩
  exact hne (get_float_concat w0 w1 hw0 hw1)

/-- Claim C2 as amended: the described FLOAT field layout coincides with the
straight 32-bit big-endian concatenation, so the decoder equals the direct
reinterpretation of `word0 << 16 | word1` on every 2-word input. -/
theorem get_float_matches_concat (w0 w1 : ℕ) (h0 : w0 < 2 ^ 16) (h1 : w1 < 2 ^ 16) :
    get_float [w0, w1] = .ok (w0 * 2 ^ 16 + w1) :=
  get_float_concat w0 w1 h0 h1

/-- Witness for the amended C2 at the concrete input of the test fixture. -/
theorem get_float_matches_concat_witness :
    (0x42F6 : ℕ) < 2 ^ 16 ∧ (0xE666 : ℕ) < 2 ^ 16 ∧
    get_float [0x42F6, 0xE666] = .ok (0x42F6 * 2 ^ 16 + 0xE666) :=
  ⟨by norm_num, by norm_num, get_float_matches_concat 0x42F6 0xE666 (by norm_num) (by norm_num)⟩

/-- Claim C5: FLOAT assembles the IEEE-754 single whose sign bit is bit 15
of word0, whose exponent field is bits 14-7 of word0, and whose significand
is the low 7 bits of word0 above all 16 bits of word1; on [0x42F6, 0xE666]
it returns the bit pattern 0x42F6E666, whose exact value is within half an
ulp of 123.45. -/
theorem get_float_ieee_layout (w0 w1 : ℕ) (h0 : w0 < 2 ^ 16) (h1 : w1 < 2 ^ 16) :
    get_float [w0, w1] =
      .ok ((w0 >>> 15) * 2 ^ 31 + ((w0 >>> 7) % 2 ^ 8) * 2 ^ 23 +
        ((w0 % 2 ^ 7) * 2 ^ 16 + w1)) ∧
    get_float [0x42F6, 0xE666] = .ok 0x42F6E666 ∧
    f32ValOfBits 0x42F6E666 - 2469 / 20 < 1 / 2 ^ 18 ∧
    (2469 / 20 : ℚ) - f32ValOfBits 0x42F6E666 < 1 / 2 ^ 18 := by
  refine ⟨?_, get_float_sample, ?_, ?_⟩
  · rw [get_float_concat w0 w1 h0 h1]
    simp only [Except.ok.injEq, Nat.shiftRight_eq_div_pow]
    omega
  · norm_num [f32ValOfBits]
  · norm_num [f32ValOfBits]

/-- Witness for C5 at the concrete input of the test fixture. -/
theorem get_float_ieee_layout_witness :
    (0x42F6 : ℕ) < 2 ^ 16 ∧ (0xE666 : ℕ) < 2 ^ 16 ∧
    (get_float [0x42F6, 0xE666] =
        .ok ((0x42F6 >>> 15) * 2 ^ 31 + ((0x42F6 >>> 7) % 2 ^ 8) * 2 ^ 23 +
          ((0x42F6 % 2 ^ 7) * 2 ^ 16 + 0xE666)) ∧
      get_float [0x42F6, 0xE666] = .ok 0x42F6E666 ∧
      f32ValOfBits 0x42F6E666 - 2469 / 20 < 1 / 2 ^ 18 ∧
      (2469 / 20 : ℚ) - f32ValOfBits 0x42F6E666 < 1 / 2 ^ 18) :=
  ⟨by norm_num, by norm_num, get_float_ieee_layout 0x42F6 0xE666 (by norm_num) (by norm_num)⟩

/-- Claim C3: for every register block fed to the counter assembler, the
decoded counter satisfies `val = mantissa * 10 ^ exp` where `exp` is the T2
decode of the exponent register and `mantissa` the T3 decode of the mantissa
registers; in exact rational semantics the float power
`10.0f32.powf(exp as f32)` of the source (exponent cast to float, which is
exact on the i16 range) is the integer power `10 ^ exp`, also for negative
exponents. -/
theorem read_finder_counter_val (e0 m0 m1 x0 x1 f0 f1 : ℕ)
    (he : e0 < 2 ^ 16) (hm0 : m0 < 2 ^ 16) (hm1 : m1 < 2 ^ 16) (hx0 : x0 < 2 ^ 16)
    (hx1 : x1 < 2 ^ 16) (hf0 : f0 < 2 ^ 16) (hf1 : f1 < 2 ^ 16) :
    ∃ c : Counter, read_finder_counter [e0] [m0, m1] [x0, x1] [f0, f1] = .ok c ∧
      c.exp = toI16 e0 ∧ c.mantissa = toI32 (m0 * 2 ^ 16 + m1) ∧
      c.val = (c.mantissa : ℚ) * (10 : ℚ) ^ c.exp := by
  have h2 : get_t2 [e0] = .ok (toI16 e0) := rfl
  have h3 : get_t3 [m0, m1] = .ok (toI32 (m0 * 2 ^ 16 + m1)) := get_t3_eq m0 m1 hm0 hm1
  have h3x : get_t3 [x0, x1] = .ok (toI32 (x0 * 2 ^ 16 + x1)) := get_t3_eq x0 x1 hx0 hx1
  have hf : get_float [f0, f1] = .ok (f0 * 2 ^ 16 + f1) := get_float_concat f0 f1 hf0 hf1
  refine ⟨⟨toI16 e0, toI32 (m0 * 2 ^ 16 + m1),
      ((toI32 (m0 * 2 ^ 16 + m1) : ℤ) : ℚ) * (10 : ℚ) ^ toI16 e0,
      ((toI32 (x0 * 2 ^ 16 + x1) : ℤ) : ℚ) / 10, f0 * 2 ^ 16 + f1⟩, ?_, rfl, rfl, rfl⟩
  simp only [read_finder_counter, h2, h3, h3x, hf]
  rfl

/-- Witness for C3 with a negative decade exponent (0xFFFD decodes to -3). -/
theorem read_finder_counter_val_witness :
    (0xFFFD : ℕ) < 2 ^ 16 ∧ toI16 0xFFFD = -3 ∧
    (∃ c : Counter, read_finder_counter [0xFFFD] [0x075B, 0xCD15] [0, 0] [0, 0] = .ok c ∧
      c.exp = toI16 0xFFFD ∧ c.mantissa = toI32 (0x075B * 2 ^ 16 + 0xCD15) ∧
      c.val = (c.mantissa : ℚ) * (10 : ℚ) ^ c.exp) :=
  ⟨by norm_num, by norm_num [toI16],
    read_finder_counter_val 0xFFFD 0x075B 0xCD15 0 0 0 0 (by norm_num) (by norm_num)
      (by norm_num) (by norm_num) (by norm_num) (by norm_num) (by norm_num)⟩

/-- Claim C4: every decoder signals `InvalidInputLength` (and produces no
`ok` value) exactly when the block length differs from its fixed requirement
(1 word for T1, T2, T16, T17; 2 words for T3, T5, T6, T7, FLOAT); in
particular T3 on one word and T1 on two words both signal it. -/
theorem decode_length_check (v : List ℕ) :
    (get_t1 v = .error .InvalidInputLength ↔ v.length ≠ 1) ∧
    (get_t2 v = .error .InvalidInputLength ↔ v.length ≠ 1) ∧
    (get_t16 v = .error .InvalidInputLength ↔ v.length ≠ 1) ∧
    (get_t17 v = .error .InvalidInputLength ↔ v.length ≠ 1) ∧
    (get_t3 v = .error .InvalidInputLength ↔ v.length ≠ 2) ∧
    (get_t5 v = .error .InvalidInputLength ↔ v.length ≠ 2) ∧
    (get_t6 v = .error .InvalidInputLength ↔ v.length ≠ 2) ∧
    (get_t7 v = .error .InvalidInputLength ↔ v.length ≠ 2) ∧
    (get_float v = .error .InvalidInputLength ↔ v.length ≠ 2) ∧
    get_t3 [0] = .error .InvalidInputLength ∧
    get_t1 [0, 0] = .error .InvalidInputLength := by
  rcases v with _ | ⟨a, _ | ⟨b, _ | ⟨c, t⟩⟩⟩ <;>
    simp [get_t1, get_t2, get_t3, get_t5, get_t6, get_t7, get_t16, get_t17, get_float]

end RS485
